import Mathlib

/-!
Shallow embedding of the `fako1024/numerics` root-finding package.

Go `float64` values are modelled by the type `F`: an exact rational for the
finite case plus the special values `+Inf`, `-Inf` and `NaN`.  Arithmetic and
comparisons follow the IEEE-754 rules at the structural level (NaN poisons
every operation and compares false; infinities absorb finite values; a finite
value divided by zero yields a signed infinity, `0/0` yields NaN).  Finite
arithmetic is exact rational arithmetic; the control flow of the translated
code depends only on the classification of values (NaN / infinite / ordered
comparisons), which this model preserves.  Decimal literals of the Go source
(`0.1`, `1e-15`, ...) are modelled by the corresponding rationals.
-/

namespace Numerics

/-- Model of a Go `float64`: finite rational, the two infinities, or NaN. -/
inductive F where
  | fin (q : ℚ)
  | pinf
  | ninf
  | nan
deriving DecidableEq

namespace F

/-- `math.IsNaN`. -/
def isNaNB : F → Bool
  | nan => true
  | _ => false

/-- `math.IsInf(x, 0)`: either infinity. -/
def isInfB : F → Bool
  | pinf => true
  | ninf => true
  | _ => false

/-- `math.IsInf(x, 1)`: positive infinity. -/
def isPinfB : F → Bool
  | pinf => true
  | _ => false

/-- A finite (neither infinite nor NaN) value. -/
def isFiniteB : F → Bool
  | fin _ => true
  | _ => false

/-- IEEE negation. -/
def neg : F → F
  | fin q => fin (-q)
  | pinf => ninf
  | ninf => pinf
  | nan => nan

/-- IEEE addition (structural level). -/
def add : F → F → F
  | nan, _ => nan
  | _, nan => nan
  | pinf, ninf => nan
  | ninf, pinf => nan
  | pinf, _ => pinf
  | _, pinf => pinf
  | ninf, _ => ninf
  | _, ninf => ninf
  | fin a, fin b => fin (a + b)

/-- IEEE subtraction, `a - b = a + (-b)`. -/
def sub (a b : F) : F := add a (neg b)

/-- IEEE multiplication (structural level); `0 * Inf = NaN`. -/
def mul : F → F → F
  | nan, _ => nan
  | _, nan => nan
  | fin a, fin b => fin (a * b)
  | fin a, pinf => if 0 < a then pinf else if a < 0 then ninf else nan
  | fin a, ninf => if 0 < a then ninf else if a < 0 then pinf else nan
  | pinf, fin b => if 0 < b then pinf else if b < 0 then ninf else nan
  | ninf, fin b => if 0 < b then ninf else if b < 0 then pinf else nan
  | pinf, pinf => pinf
  | pinf, ninf => ninf
  | ninf, pinf => ninf
  | ninf, ninf => pinf

/-- IEEE division (structural level); a nonzero finite value divided by zero
is a signed infinity, `0/0` and `Inf/Inf` are NaN.  The model has a single
zero, treated as `+0`. -/
def div : F → F → F
  | nan, _ => nan
  | _, nan => nan
  | fin a, fin b =>
      if b = 0 then (if 0 < a then pinf else if a < 0 then ninf else nan)
      else fin (a / b)
  | fin _, pinf => fin 0
  | fin _, ninf => fin 0
  | pinf, fin b => if b < 0 then ninf else pinf
  | ninf, fin b => if b < 0 then pinf else ninf
  | pinf, pinf => nan
  | pinf, ninf => nan
  | ninf, pinf => nan
  | ninf, ninf => nan

/-- `math.Abs`. -/
def fabs : F → F
  | fin q => fin |q|
  | nan => nan
  | _ => pinf

/-- IEEE `<`: false whenever either operand is NaN. -/
def ltB : F → F → Bool
  | nan, _ => false
  | _, nan => false
  | ninf, ninf => false
  | ninf, _ => true
  | _, ninf => false
  | pinf, _ => false
  | fin _, pinf => true
  | fin a, fin b => decide (a < b)

/-- IEEE `==`: false whenever either operand is NaN. -/
def beq : F → F → Bool
  | nan, _ => false
  | _, nan => false
  | fin a, fin b => decide (a = b)
  | pinf, pinf => true
  | ninf, ninf => true
  | _, _ => false

/-- IEEE `<=`. -/
def leB (a b : F) : Bool := ltB a b || beq a b

/-- Membership in the seen-values list, using IEEE equality on keys (the Go
`map[float64]struct\x7b\x7d` lookup semantics: a NaN key never matches). -/
def memB (x : F) (seen : List F) : Bool := seen.any (fun y => beq y x)

/-- The rational value of Go `math.MaxFloat64`. -/
def maxFloat64 : ℚ := (2 ^ 53 - 1) * 2 ^ 971

def zero : F := fin 0
def two : F := fin 2
def half : F := fin (1 / 2)
def tenth : F := fin (1 / 10)
/-- The `1e-15` threshold of the cycle/stationary heuristic. -/
def eps15 : F := fin (1 / 10 ^ 15)
/-- `bisectTolerance = 1e-11`. -/
def tol11 : F := fin (1 / 10 ^ 11)
/-- The default `targetPrecision = 1e-9`. -/
def prec9 : F := fin (1 / 10 ^ 9)

end F

/-- `numerics.Sign` (options.go / numerics package): sign of a `float64`,
with both comparisons false on NaN. -/
def Sign (x : F) : Int :=
  if F.ltB x F.zero then -1
  else if F.ltB F.zero x then 1
  else 0

/-- The `Method` functional type of the root package. -/
abbrev Method := F → (F → F) → (F → F) → F

/-- `root.NewtonRaphson`: `x - fx(x)/dfx(x)`. -/
def NewtonRaphson : Method := fun x fx dfx => F.sub x (F.div (fx x) (dfx x))

/-- `root.Homeier`: `x - fx(x)/dfx(x - 0.5*fx(x)/dfx(x))`, with `fx(x)`
evaluated once. -/
def Homeier : Method := fun x fx dfx =>
  let fxVal := fx x
  F.sub x (F.div fxVal (dfx (F.sub x (F.div (F.mul F.half fxVal) (dfx x)))))

/-- `root.Bisect`, with the loop counter modelled as remaining fuel
(`bisectMaxIter = 100` rounds). -/
def bisectIter (fx : F → F) : Nat → F → F → F
  | 0, _, _ => F.nan
  | i + 1, a, b =>
    let c := F.div (F.add a b) F.two
    let fxVal := fx c
    if F.beq fxVal F.zero || F.ltB (F.div (F.sub b a) F.two) F.tol11 then c
    else if Sign fxVal = Sign (fx a) then bisectIter fx i c b
    else bisectIter fx i a c

/-- `root.Bisect` entry point: 100 rounds, NaN on exhaustion. -/
def Bisect (fx : F → F) (aInit bInit : F) : F := bisectIter fx 100 aInit bInit

/-- The `root.Finder` structure. -/
structure Finder where
  fx : F → F
  dfx : F → F
  method : Method
  xMin : F
  xMax : F
  minIterations : Int
  maxIterations : Int
  targetPrecision : F
  useHeuristics : Bool

/-- The defaults installed by `root.Find` before options run. -/
def defaultFinder (fx dfx : F → F) : Finder where
  fx := fx
  dfx := dfx
  method := NewtonRaphson
  xMin := F.fin (-F.maxFloat64)
  xMax := F.fin F.maxFloat64
  minIterations := 5
  maxIterations := 25
  targetPrecision := F.prec9
  useHeuristics := false

/-- `root.WithMinIterations`. -/
def WithMinIterations (nIterations : Int) : Finder → Finder :=
  fun n => { n with minIterations := nIterations }

/-- `root.WithMaxIterations`. -/
def WithMaxIterations (nIterations : Int) : Finder → Finder :=
  fun n => { n with maxIterations := nIterations }

/-- `root.WithTargetPrecision`. -/
def WithTargetPrecision (targetPrecision : F) : Finder → Finder :=
  fun n => { n with targetPrecision := targetPrecision }

/-- `root.WithMethod`. -/
def WithMethod (method : Method) : Finder → Finder :=
  fun n => { n with method := method }

/-- `root.WithLimits`. -/
def WithLimits (xMin xMax : F) : Finder → Finder :=
  fun n => { n with xMin := xMin, xMax := xMax }

/-- `root.WithHeuristics`. -/
def WithHeuristics : Finder → Finder :=
  fun n => { n with useHeuristics := true }

/-- The candidate `xNew := n.method(x, n.fx, n.dfx)` computed at the top of
each round of `Finder.loop`. -/
def cand (n : Finder) (x : F) : F := n.method x n.fx n.dfx

/-- Result of one round of `Finder.loop`: either the loop returns `r`, or it
continues with a new state (current iterate, iteration counter, seen set). -/
inductive StepResult where
  | ret (r : F)
  | cont (x : F) (nIter : Nat) (seen : List F)
deriving DecidableEq

/-- The tail of an accepted round (`x = xNew; nIter++` followed by the
convergence test), abstracted over the inner convergence test `conv`:
the loop breaks and returns `xNew` when `nIter >= minIterations` and the
test fires, otherwise it continues. -/
def acceptOutcome (n : Finder) (conv : F → Nat → Bool) (xNew : F) (k : Nat)
    (seen : List F) : StepResult :=
  if decide (n.minIterations ≤ ((k + 1 : Nat) : Int)) && conv xNew (k + 1) then
    .ret xNew
  else
    .cont xNew (k + 1) seen

/-- Guard of the upper bound clamp: `!math.IsInf(xNew, 0) && xNew > n.xMax`. -/
def gClampHi (n : Finder) (x : F) : Bool :=
  !(F.isInfB (cand n x)) && F.ltB n.xMax (cand n x)

/-- Guard of the lower bound clamp: `!math.IsInf(xNew, 0) && xNew < n.xMin`. -/
def gClampLo (n : Finder) (x : F) : Bool :=
  !(F.isInfB (cand n x)) && F.ltB (cand n x) n.xMin

/-- Guard of the infinity-recovery heuristic:
`n.useHeuristics && math.IsInf(xNew, 0)`. -/
def gInfRec (n : Finder) (x : F) : Bool :=
  n.useHeuristics && F.isInfB (cand n x)

/-- The progress test of the cycle heuristic: `math.Abs(xNew-x) > 1e-15`. -/
def gProg (n : Finder) (x : F) : Bool :=
  F.ltB F.eps15 (F.fabs (F.sub (cand n x) x))

/-- Guard of the cycle-retry branch: heuristics on, non-negligible progress,
and the candidate already recorded in the seen-values set. -/
def gCycle (n : Finder) (x : F) (seen : List F) : Bool :=
  n.useHeuristics && gProg n x && F.memB (cand n x) seen

/-- One round of `Finder.loop`, abstracted over the inner convergence test
(the `|fx(x)| < targetPrecision || nIter >= maxIterations` condition). -/
def loopStepG (n : Finder) (conv : F → Nat → Bool) (x : F) (k : Nat)
    (seen : List F) : StepResult :=
  if gClampHi n x then
    .cont (F.mul F.half (F.add x n.xMax)) k seen
  else if gClampLo n x then
    .cont (F.mul F.half (F.add x n.xMin)) k seen
  else if F.isNaNB (cand n x) then
    .ret F.nan
  else if gInfRec n x then
    (if F.isPinfB (cand n x) then
      .cont (F.add x (F.add (F.mul F.tenth x) F.tenth)) k seen
    else
      .cont (F.sub x (F.sub (F.mul F.tenth x) F.tenth)) k seen)
  else if gCycle n x seen then
    (if !(F.beq (cand n x) x) then
      .cont (F.div (F.add (cand n x) x) F.two) k seen
    else
      .cont (F.add x (F.add (F.mul F.tenth x) F.tenth)) k seen)
  else
    acceptOutcome n conv (cand n x) k
      (if n.useHeuristics && gProg n x then cand n x :: seen else seen)

/-- The concrete convergence test of `Finder.loop`:
`math.Abs(n.fx(x)) < n.targetPrecision || nIter >= n.maxIterations`. -/
def convStd (n : Finder) : F → Nat → Bool := fun y k =>
  F.ltB (F.fabs (n.fx y)) n.targetPrecision || decide (n.maxIterations ≤ (k : Int))

/-- One round of `Finder.loop` with the concrete convergence test. -/
def loopStep (n : Finder) : F → Nat → List F → StepResult :=
  loopStepG n (convStd n)

/-- State of the loop after a bounded number of rounds: still running with a
current state, or finished with a return value. -/
inductive MState where
  | running (x : F) (nIter : Nat) (seen : List F)
  | done (r : F)
deriving DecidableEq

/-- Run `Finder.loop` for at most `fuel` rounds. -/
def runRounds (n : Finder) : Nat → F → Nat → List F → MState
  | 0, x, k, seen => .running x k seen
  | fuel + 1, x, k, seen =>
    match loopStep n x k seen with
    | .ret r => .done r
    | .cont x' k' seen' => runRounds n fuel x' k' seen'

/-- `Finder.loop`, fuel-bounded (the Go loop is unbounded; `none` means it
has not returned within `fuel` rounds). -/
def loopFuel (n : Finder) (fuel : Nat) (x : F) (k : Nat) (seen : List F) :
    Option F :=
  match runRounds n fuel x k seen with
  | .done r => some r
  | .running _ _ _ => none

/-- `root.Find`: build the default `Finder`, apply the functional options in
order, and run the loop from `xInit` with counter `0` and an empty
seen-values set. -/
def Find (fuel : Nat) (fx dfx : F → F) (xInit : F)
    (options : List (Finder → Finder)) : Option F :=
  loopFuel (options.foldl (fun o opt => opt o) (defaultFinder fx dfx))
    fuel xInit 0 []

/-- The condition under which a round reaches the acceptance step
(`x = xNew; nIter++`): no bound clamp, no NaN abort, no heuristic retry. -/
def acceptsB (n : Finder) (x : F) (seen : List F) : Bool :=
  !(gClampHi n x) && !(gClampLo n x) && !(F.isNaNB (cand n x)) &&
  !(gInfRec n x) && !(gCycle n x seen)

/-- Number of accepted rounds in a fuel-bounded run. -/
def acceptedCount (n : Finder) : Nat → F → Nat → List F → Nat
  | 0, _, _, _ => 0
  | fuel + 1, x, k, seen =>
    (if acceptsB n x seen then 1 else 0) +
    (match loopStep n x k seen with
     | .ret _ => 0
     | .cont x' k' seen' => acceptedCount n fuel x' k' seen')

/-- Modelled from the spec wording of the bisection algorithm (claim C5):
per iteration compute the midpoint `c = (a+b)/2`, return `c` immediately if
`fx(c) == 0` exactly or `(b-a)/2` is below tolerance, otherwise replace `a`
by `c` when `sign(fx(c))` equals `sign(fx(a))` (with `fx(a)` re-evaluated
that iteration) and replace `b` by `c` otherwise; NaN when the iteration
budget is exhausted. -/
def bisectClaim (fx : F → F) : Nat → F → F → F
  | 0, _, _ => F.nan
  | i + 1, a, b =>
    if F.beq (fx (F.div (F.add a b) F.two)) F.zero
        || F.ltB (F.div (F.sub b a) F.two) F.tol11 then
      F.div (F.add a b) F.two
    else if Sign (fx (F.div (F.add a b) F.two)) = Sign (fx a) then
      bisectClaim fx i (F.div (F.add a b) F.two) b
    else
      bisectClaim fx i a (F.div (F.add a b) F.two)

/-- Concrete fixture: Newton-Raphson on `fx(y) = y`, `dfx(y) = 1`, with small
finite bounds. -/
def wBase : Finder :=
  { defaultFinder (fun y => y) (fun _ => F.fin 1) with
    xMin := F.fin (-1000), xMax := F.fin 1000 }

/-- Fixture whose stepping strategy immediately yields NaN. -/
def wNaN : Finder := { wBase with method := fun _ _ _ => F.nan }

/-- Fixture with heuristics on whose stepping strategy yields `+Inf`. -/
def wPinf : Finder :=
  { wBase with method := fun _ _ _ => F.pinf, useHeuristics := true }

/-- Fixture with heuristics on whose stepping strategy yields `-Inf`. -/
def wNinf : Finder :=
  { wBase with method := fun _ _ _ => F.ninf, useHeuristics := true }

/-- Fixture with bounds `[-1, 1]` whose stepping strategy yields `2`. -/
def wHi : Finder :=
  { wBase with
    method := fun _ _ _ => F.fin 2
    xMin := F.fin (-1)
    xMax := F.fin 1 }

/-- Fixture with bounds `[-1, 1]` whose stepping strategy yields `-2`. -/
def wLo : Finder :=
  { wBase with
    method := fun _ _ _ => F.fin (-2)
    xMin := F.fin (-1)
    xMax := F.fin 1 }

/-- Fixture with heuristics on whose stepping strategy yields `2`. -/
def wCyc : Finder :=
  { wBase with method := fun _ _ _ => F.fin 2, useHeuristics := true }

/-- Fixture function for bisection: NaN at `0`, `1` elsewhere. -/
def wNaNAtZero : F → F :=
  fun z => if F.beq z (F.fin 0) then F.nan else F.fin 1

/-- A round that continues advances the counter exactly when it accepts. -/
lemma loopStep_cont_counter (n : Finder) (x : F) (k : Nat) (seen : List F)
    (x' : F) (k' : Nat) (seen' : List F)
    (h : loopStep n x k seen = .cont x' k' seen') :
    (acceptsB n x seen = true → k' = k + 1) ∧
    (acceptsB n x seen = false → k' = k) := by
  unfold loopStep loopStepG acceptOutcome at h
  split_ifs at h <;> cases h <;> simp [acceptsB, *]

/-- A round that returns either returns NaN (the abort path) or returns the
accepted candidate with the convergence test satisfied at counter `k+1`. -/
lemma loopStep_ret_char (n : Finder) (x : F) (k : Nat) (seen : List F) (r : F)
    (h : loopStep n x k seen = .ret r) :
    r = F.nan ∨
    (r = cand n x ∧ n.minIterations ≤ ((k + 1 : Nat) : Int) ∧
      convStd n r (k + 1) = true) := by
  unfold loopStep loopStepG acceptOutcome at h
  split_ifs at h with h1 h2 h3 h4 h5 h6 h7 h8 <;> cases h
  · exact Or.inl rfl
  · rw [Bool.and_eq_true, decide_eq_true_eq] at h8
    exact Or.inr ⟨rfl, h8.1, h8.2⟩

/-- A finished run has a final round whose `loopStep` returned the result. -/
lemma runRounds_done_char (n : Finder) :
    ∀ (fuel : Nat) (x : F) (k : Nat) (seen : List F) (r : F),
      runRounds n fuel x k seen = .done r →
      ∃ x0 k0 seen0, loopStep n x0 k0 seen0 = .ret r := by
  intro fuel
  induction fuel with
  | zero => intro x k seen r h; cases h
  | succ fuel ih =>
    intro x k seen r h
    rw [runRounds] at h
    cases hstep : loopStep n x k seen with
    | ret r' =>
      rw [hstep] at h
      cases h
      exact ⟨x, k, seen, hstep⟩
    | cont x1 k1 s1 =>
      rw [hstep] at h
      exact ih x1 k1 s1 r h

/-- As long as the run is still going, the iteration counter equals its
initial value plus the number of accepted rounds so far. -/
lemma runRounds_counter (n : Finder) :
    ∀ (fuel : Nat) (x : F) (k : Nat) (seen : List F) (x' : F) (k' : Nat)
      (seen' : List F),
      runRounds n fuel x k seen = .running x' k' seen' →
      k' = k + acceptedCount n fuel x k seen := by
  intro fuel
  induction fuel with
  | zero =>
    intro x k seen x' k' seen' h
    cases h
    simp [acceptedCount]
  | succ fuel ih =>
    intro x k seen x' k' seen' h
    rw [runRounds] at h
    rw [acceptedCount]
    cases hstep : loopStep n x k seen with
    | ret r => rw [hstep] at h; cases h
    | cont x1 k1 s1 =>
      rw [hstep] at h
      have hk1 := loopStep_cont_counter n x k seen x1 k1 s1 hstep
      have hrec := ih x1 k1 s1 x' k' seen' h
      simp only [hstep]
      cases ha : acceptsB n x seen with
      | true =>
        have := hk1.1 ha
        rw [if_pos rfl]
        omega
      | false =>
        have := hk1.2 ha
        rw [if_neg Bool.false_ne_true]
        omega

/-- While the counter (after the pending increment) is still below
`minIterations`, a round's outcome does not depend on the inner convergence
test at all. -/
lemma loopStepG_conv_indep (n : Finder) (conv1 conv2 : F → Nat → Bool)
    (x : F) (k : Nat) (seen : List F)
    (h : ((k + 1 : Nat) : Int) < n.minIterations) :
    loopStepG n conv1 x k seen = loopStepG n conv2 x k seen := by
  have hd : decide (n.minIterations ≤ ((k + 1 : Nat) : Int)) = false := by
    simp only [decide_eq_false_iff_not, not_le]
    exact h
  unfold loopStepG acceptOutcome
  rw [hd]
  simp only [Bool.false_and]

/-- If a run returns `r`, some round's `loopStep` produced `.ret r`. -/
lemma loopFuel_some_char (n : Finder) (fuel : Nat) (x : F) (k : Nat)
    (seen : List F) (r : F) (h : loopFuel n fuel x k seen = some r) :
    ∃ x0 k0 seen0, loopStep n x0 k0 seen0 = .ret r := by
  unfold loopFuel at h
  cases hrun : runRounds n fuel x k seen with
  | done r' =>
    rw [hrun] at h
    cases h
    exact runRounds_done_char n fuel x k seen r hrun
  | running a b c => rw [hrun] at h; cases h

/-- Multiplying by one half is division by two on every model value. -/
lemma mul_half_eq_div_two (v : F) : F.mul F.half v = F.div v F.two := by
  cases v with
  | fin q =>
    simp only [F.mul, F.div, F.half, F.two]
    rw [if_neg (by norm_num : (2 : ℚ) = 0 → False)]
    congr 1
    ring
  | pinf =>
    simp only [F.mul, F.div, F.half, F.two]
    norm_num
  | ninf =>
    simp only [F.mul, F.div, F.half, F.two]
    norm_num
  | nan => rfl

/-- A finite value not exceeded by a non-NaN `b` is at most `b`. -/
lemma leB_of_not_ltB_left (q : ℚ) (b : F) (hb : F.isNaNB b = false)
    (h : F.ltB b (F.fin q) = false) : F.leB (F.fin q) b = true := by
  cases b with
  | fin r =>
    simp only [F.ltB, decide_eq_false_iff_not, not_lt] at h
    rcases lt_or_eq_of_le h with h' | h'
    · simp [F.leB, F.ltB, h']
    · simp [F.leB, F.beq, h'.symm]
  | pinf => simp [F.leB, F.ltB]
  | ninf => simp [F.ltB] at h
  | nan => simp [F.isNaNB] at hb

/-- A finite value not below a non-NaN `b` is at least `b`. -/
lemma leB_of_not_ltB_right (q : ℚ) (b : F) (hb : F.isNaNB b = false)
    (h : F.ltB (F.fin q) b = false) : F.leB b (F.fin q) = true := by
  cases b with
  | fin r =>
    simp only [F.ltB, decide_eq_false_iff_not, not_lt] at h
    rcases lt_or_eq_of_le h with h' | h'
    · simp [F.leB, F.ltB, h']
    · simp [F.leB, F.beq, h'.symm]
  | pinf => simp [F.ltB] at h
  | ninf => simp [F.leB, F.ltB]
  | nan => simp [F.isNaNB] at hb

/-- The source `bisectIter` agrees with the spec-worded `bisectClaim`. -/
lemma bisectIter_eq_bisectClaim (fx : F → F) :
    ∀ (i : Nat) (a b : F), bisectIter fx i a b = bisectClaim fx i a b := by
  intro i
  induction i with
  | zero => intro a b; rfl
  | succ i ih =>
    intro a b
    simp only [bisectIter, bisectClaim]
    split_ifs with h1 h2
    · rfl
    · exact ih _ _
    · exact ih _ _

/-- `Sign` maps every NaN to the zero class. -/
lemma sign_of_nan (y : F) (hy : F.isNaNB y = true) : Sign y = 0 := by
  cases y with
  | nan => rfl
  | fin q => exact Bool.noConfusion hy
  | pinf => exact Bool.noConfusion hy
  | ninf => exact Bool.noConfusion hy

/-- No value is IEEE-below NaN. -/
lemma ltB_nan_right (x : F) : F.ltB x F.nan = false := by
  cases x <;> rfl

/-- NaN is IEEE-below no value. -/
lemma ltB_nan_left (x : F) : F.ltB F.nan x = false := by
  cases x <;> rfl

/-- A finite value is not infinite. -/
lemma isInfB_eq_false_of_finite (v : F) (h : F.isFiniteB v = true) :
    F.isInfB v = false := by
  cases v with
  | fin q => rfl
  | pinf => exact Bool.noConfusion h
  | ninf => exact Bool.noConfusion h
  | nan => exact Bool.noConfusion h

/-- The NaN classifier is exact. -/
lemma eq_nan_of_isNaNB (v : F) (h : F.isNaNB v = true) : v = F.nan := by
  cases v with
  | nan => rfl
  | fin q => exact Bool.noConfusion h
  | pinf => exact Bool.noConfusion h
  | ninf => exact Bool.noConfusion h

/-- NaN divided by anything is NaN. -/
lemma div_nan_left (y : F) : F.div F.nan y = F.nan := by
  cases y <;> rfl

/-- Anything divided by NaN is NaN. -/
lemma div_nan_right (y : F) : F.div y F.nan = F.nan := by
  cases y <;> rfl

/-- Subtracting NaN yields NaN. -/
lemma sub_nan_right (y : F) : F.sub y F.nan = F.nan := by
  cases y <;> rfl

/-- A finite value divided by zero: signed infinity, or NaN at zero. -/
lemma div_fin_zero (q : ℚ) :
    F.div (F.fin q) (F.fin 0) =
      if 0 < q then F.pinf else if q < 0 then F.ninf else F.nan := by
  simp [F.div]

/-- Positive infinity divided by zero is positive infinity. -/
lemma div_pinf_zero : F.div F.pinf (F.fin 0) = F.pinf := by
  simp [F.div]

/-- Negative infinity divided by zero is negative infinity. -/
lemma div_ninf_zero : F.div F.ninf (F.fin 0) = F.ninf := by
  simp [F.div]

/-- C1: whenever `Find`'s loop returns a non-NaN value, that value is the
candidate accepted in the final round, the iteration counter at return is at
least `minIterations`, and `|fx(x)| < targetPrecision` or the counter is at
least `maxIterations`; moreover a round whose post-increment counter is still
below `minIterations` is independent of the inner convergence test. -/
theorem C1_return_convergence :
    (∀ (n : Finder) (fuel : Nat) (x0 r : F),
      loopFuel n fuel x0 0 [] = some r → F.isNaNB r = false →
      ∃ x k seen, loopStep n x k seen = .ret r ∧ r = cand n x ∧
        n.minIterations ≤ ((k + 1 : Nat) : Int) ∧
        (F.ltB (F.fabs (n.fx r)) n.targetPrecision = true ∨
          n.maxIterations ≤ ((k + 1 : Nat) : Int))) ∧
    (∀ (n : Finder) (conv1 conv2 : F → Nat → Bool) (x : F) (k : Nat)
      (seen : List F), ((k + 1 : Nat) : Int) < n.minIterations →
      loopStepG n conv1 x k seen = loopStepG n conv2 x k seen) := by
  constructor
  · intro n fuel x0 r h hr
    obtain ⟨x, k, seen, hstep⟩ := loopFuel_some_char n fuel x0 0 [] r h
    rcases loopStep_ret_char n x k seen r hstep with hnan | ⟨hc, hmin, hconv⟩
    · rw [hnan] at hr
      exact Bool.noConfusion hr
    · refine ⟨x, k, seen, hstep, hc, hmin, ?_⟩
      unfold convStd at hconv
      rw [Bool.or_eq_true] at hconv
      rcases hconv with h' | h'
      · exact Or.inl h'
      · exact Or.inr (by simpa using h')
  · exact fun n conv1 conv2 x k seen h =>
      loopStepG_conv_indep n conv1 conv2 x k seen h

set_option maxRecDepth 8000 in
/-- Witness for C1 on a concrete converging run (Newton-Raphson on the
identity function, returning the root 0 after five accepted steps). -/
theorem C1_return_convergence_witness :
    (∃ x k seen, loopStep wBase x k seen = .ret (F.fin 0) ∧
      F.fin 0 = cand wBase x ∧
      wBase.minIterations ≤ ((k + 1 : Nat) : Int) ∧
      (F.ltB (F.fabs (wBase.fx (F.fin 0))) wBase.targetPrecision = true ∨
        wBase.maxIterations ≤ ((k + 1 : Nat) : Int))) ∧
    loopStepG wBase (fun _ _ => true) (F.fin 1) 0 [] =
      loopStepG wBase (fun _ _ => false) (F.fin 1) 0 [] :=
  ⟨C1_return_convergence.1 wBase 5 (F.fin 1) (F.fin 0)
      (by with_unfolding_all decide) (by decide),
    C1_return_convergence.2 wBase _ _ (F.fin 1) 0 [] (by decide)⟩

/-- C2: a continuing round advances the iteration counter exactly when the
candidate is accepted (retry rounds leave it unchanged), and at every point
of a run the counter equals its initial value plus the number of accepted
rounds so far. -/
theorem C2_counter_accepted_steps :
    (∀ (n : Finder) (x : F) (k : Nat) (seen : List F) (x' : F) (k' : Nat)
      (seen' : List F), loopStep n x k seen = .cont x' k' seen' →
      (acceptsB n x seen = true → k' = k + 1) ∧
      (acceptsB n x seen = false → k' = k)) ∧
    (∀ (n : Finder) (fuel : Nat) (x : F) (k : Nat) (seen : List F) (x' : F)
      (k' : Nat) (seen' : List F),
      runRounds n fuel x k seen = .running x' k' seen' →
      k' = k + acceptedCount n fuel x k seen) :=
  ⟨loopStep_cont_counter, runRounds_counter⟩

set_option maxRecDepth 8000 in
/-- Witness for C2: a concrete accepted round increments the counter, and a
concrete three-round run has counter equal to its accepted-step count. -/
theorem C2_counter_accepted_steps_witness :
    ((acceptsB wBase (F.fin 1) [] = true → 1 = 0 + 1) ∧
      (acceptsB wBase (F.fin 1) [] = false → 1 = 0)) ∧
    3 = 0 + acceptedCount wBase 3 (F.fin 1) 0 [] :=
  ⟨C2_counter_accepted_steps.1 wBase (F.fin 1) 0 [] (F.fin 0) 1 []
      (by with_unfolding_all decide),
    C2_counter_accepted_steps.2 wBase 3 (F.fin 1) 0 [] (F.fin 0) 3 []
      (by with_unfolding_all decide)⟩

/-- C3: a NaN candidate makes the round return NaN at once — for every
configuration (with or without heuristics), every counter value and every
seen set — and the whole loop therefore returns NaN at that round. -/
theorem C3_nan_abort :
    ∀ (n : Finder) (x : F) (k : Nat) (seen : List F) (fuel : Nat),
      F.isNaNB (cand n x) = true →
      loopStep n x k seen = .ret F.nan ∧
      loopFuel n (fuel + 1) x k seen = some F.nan := by
  intro n x k seen fuel h
  have hstep : loopStep n x k seen = .ret F.nan := by
    cases hc : cand n x with
    | nan =>
      unfold loopStep loopStepG gClampHi gClampLo gInfRec
      rw [hc]
      simp [F.isInfB, F.isNaNB, ltB_nan_right, ltB_nan_left]
    | fin q => rw [hc] at h; exact Bool.noConfusion h
    | pinf => rw [hc] at h; exact Bool.noConfusion h
    | ninf => rw [hc] at h; exact Bool.noConfusion h
  refine ⟨hstep, ?_⟩
  unfold loopFuel runRounds
  rw [hstep]

set_option maxRecDepth 8000 in
/-- Witness for C3 on a stepping strategy that immediately yields NaN. -/
theorem C3_nan_abort_witness :
    loopStep wNaN (F.fin 0) 0 [] = .ret F.nan ∧
    loopFuel wNaN (0 + 1) (F.fin 0) 0 [] = some F.nan :=
  C3_nan_abort wNaN (F.fin 0) 0 [] 0 (by decide)

/-- C7: with heuristics on, a `+Inf` candidate turns the round into a retry
with `x += 0.1*x + 0.1` and a `-Inf` candidate into a retry with
`x -= 0.1*x - 0.1`, in both cases with the counter and seen set unchanged
(no acceptance). -/
theorem C7_infinity_recovery :
    ∀ (n : Finder) (x : F) (k : Nat) (seen : List F),
      n.useHeuristics = true →
      (cand n x = F.pinf →
        loopStep n x k seen =
          .cont (F.add x (F.add (F.mul F.tenth x) F.tenth)) k seen) ∧
      (cand n x = F.ninf →
        loopStep n x k seen =
          .cont (F.sub x (F.sub (F.mul F.tenth x) F.tenth)) k seen) := by
  intro n x k seen hheur
  constructor
  · intro hc
    unfold loopStep loopStepG gClampHi gClampLo gInfRec
    rw [hc, hheur]
    simp [F.isInfB, F.isNaNB, F.isPinfB, F.ltB]
  · intro hc
    unfold loopStep loopStepG gClampHi gClampLo gInfRec
    rw [hc, hheur]
    simp [F.isInfB, F.isNaNB, F.isPinfB, F.ltB]

set_option maxRecDepth 8000 in
/-- Witness for C7 on stepping strategies that yield `+Inf` resp. `-Inf`. -/
theorem C7_infinity_recovery_witness :
    loopStep wPinf (F.fin 1) 0 [] =
      .cont (F.add (F.fin 1) (F.add (F.mul F.tenth (F.fin 1)) F.tenth)) 0 [] ∧
    loopStep wNinf (F.fin 1) 0 [] =
      .cont (F.sub (F.fin 1) (F.sub (F.mul F.tenth (F.fin 1)) F.tenth)) 0 [] :=
  ⟨(C7_infinity_recovery wPinf (F.fin 1) 0 [] (by decide)).1 (by decide),
    (C7_infinity_recovery wNinf (F.fin 1) 0 [] (by decide)).2 (by decide)⟩

/-- C4: a finite candidate above `xMax` turns the round into a retry with
`x = (x + xMax)/2` (symmetrically below `xMin`), leaving counter and seen
set unchanged; consequently, whenever a round with a finite candidate
accepts (under non-NaN configured bounds), the accepted iterate lies within
`[xMin, xMax]`. -/
theorem C4_bound_clamp :
    (∀ (n : Finder) (x : F) (k : Nat) (seen : List F),
      F.isFiniteB (cand n x) = true → F.ltB n.xMax (cand n x) = true →
      loopStep n x k seen = .cont (F.div (F.add x n.xMax) F.two) k seen) ∧
    (∀ (n : Finder) (x : F) (k : Nat) (seen : List F),
      F.isFiniteB (cand n x) = true → F.ltB n.xMax (cand n x) = false →
      F.ltB (cand n x) n.xMin = true →
      loopStep n x k seen = .cont (F.div (F.add x n.xMin) F.two) k seen) ∧
    (∀ (n : Finder) (x : F) (seen : List F),
      F.isNaNB n.xMin = false → F.isNaNB n.xMax = false →
      F.isFiniteB (cand n x) = true → acceptsB n x seen = true →
      F.leB n.xMin (cand n x) = true ∧ F.leB (cand n x) n.xMax = true) := by
  refine ⟨?_, ?_, ?_⟩
  · intro n x k seen hfin hgt
    have hinf := isInfB_eq_false_of_finite _ hfin
    have hg1 : gClampHi n x = true := by
      unfold gClampHi; rw [hinf, hgt]; rfl
    unfold loopStep loopStepG
    rw [hg1, if_pos rfl, mul_half_eq_div_two]
  · intro n x k seen hfin hgt hlt
    have hinf := isInfB_eq_false_of_finite _ hfin
    have hg1 : gClampHi n x = false := by
      unfold gClampHi; rw [hinf, hgt]; rfl
    have hg2 : gClampLo n x = true := by
      unfold gClampLo; rw [hinf, hlt]; rfl
    unfold loopStep loopStepG
    rw [hg1, if_neg Bool.false_ne_true, hg2, if_pos rfl, mul_half_eq_div_two]
  · intro n x seen hminN hmaxN hfin hacc
    obtain ⟨q, hc⟩ : ∃ q, cand n x = F.fin q := by
      cases hcand : cand n x with
      | fin q => exact ⟨q, rfl⟩
      | pinf => rw [hcand] at hfin; exact Bool.noConfusion hfin
      | ninf => rw [hcand] at hfin; exact Bool.noConfusion hfin
      | nan => rw [hcand] at hfin; exact Bool.noConfusion hfin
    have h1 : gClampHi n x = false := by
      cases hg : gClampHi n x with
      | false => rfl
      | true =>
        unfold acceptsB at hacc
        rw [hg] at hacc
        simp at hacc
    have h2 : gClampLo n x = false := by
      cases hg : gClampLo n x with
      | false => rfl
      | true =>
        unfold acceptsB at hacc
        rw [hg] at hacc
        simp at hacc
    unfold gClampHi at h1
    unfold gClampLo at h2
    rw [hc] at h1 h2 ⊢
    simp only [F.isInfB, Bool.not_false, Bool.true_and] at h1 h2
    exact ⟨leB_of_not_ltB_right q n.xMin hminN h2,
      leB_of_not_ltB_left q n.xMax hmaxN h1⟩

set_option maxRecDepth 8000 in
/-- Witness for C4: concrete upper clamp, lower clamp, and an accepted
in-bounds round. -/
theorem C4_bound_clamp_witness :
    loopStep wHi (F.fin 0) 0 [] =
      .cont (F.div (F.add (F.fin 0) wHi.xMax) F.two) 0 [] ∧
    loopStep wLo (F.fin 0) 0 [] =
      .cont (F.div (F.add (F.fin 0) wLo.xMin) F.two) 0 [] ∧
    (F.leB wBase.xMin (cand wBase (F.fin 1)) = true ∧
      F.leB (cand wBase (F.fin 1)) wBase.xMax = true) :=
  ⟨C4_bound_clamp.1 wHi (F.fin 0) 0 [] (by decide)
      (by with_unfolding_all decide),
    C4_bound_clamp.2.1 wLo (F.fin 0) 0 [] (by decide)
      (by with_unfolding_all decide) (by with_unfolding_all decide),
    C4_bound_clamp.2.2 wBase (F.fin 1) [] (by decide) (by decide)
      (by with_unfolding_all decide) (by with_unfolding_all decide)⟩

/-- C5: `Bisect` runs at most 100 rounds of exactly the per-iteration
algorithm described by the spec (midpoint, immediate return on exact zero or
half-width below `1e-11`, sign-comparison bracket update with `fx(a)`
re-evaluated), and yields NaN when the budget is exhausted without
returning. -/
theorem C5_bisect_refinement :
    ∀ (fx : F → F) (a b : F),
      Bisect fx a b = bisectClaim fx 100 a b ∧ bisectClaim fx 0 a b = F.nan :=
  fun fx a b => ⟨bisectIter_eq_bisectClaim fx 100 a b, rfl⟩

/-- C6 counterexample: at `x = 0` with `fx = dfx = const 0` we have
`dfx(x) == 0`, yet Newton-Raphson yields NaN (`0/0`), not an infinity as the
claim states. -/
theorem C6_newton_counterexample :
    (fun _ : F => F.fin 0) (F.fin 0) = F.fin 0 ∧
    NewtonRaphson (F.fin 0) (fun _ => F.fin 0) (fun _ => F.fin 0) = F.nan ∧
    F.isInfB (NewtonRaphson (F.fin 0) (fun _ => F.fin 0)
      (fun _ => F.fin 0)) = false := by
  refine ⟨rfl, ?_, ?_⟩ <;> with_unfolding_all decide

/-- C6 (amended): `NewtonRaphson` computes `x - fx(x)/dfx(x)`; it yields NaN
whenever `fx(x)` or `dfx(x)` is NaN, and yields an infinity when
`dfx(x) == 0` provided `x` is finite and `fx(x)` is neither zero nor NaN;
`Homeier` computes `x - f0/dfx(m)` with `f0 = fx(x)` evaluated once and
`m = x - 0.5*f0/dfx(x)`. -/
theorem C6_stepping_formulas :
    (∀ (x : F) (fx dfx : F → F),
      NewtonRaphson x fx dfx = F.sub x (F.div (fx x) (dfx x))) ∧
    (∀ (x : F) (fx dfx : F → F),
      F.isNaNB (fx x) = true ∨ F.isNaNB (dfx x) = true →
      F.isNaNB (NewtonRaphson x fx dfx) = true) ∧
    (∀ (x : F) (fx dfx : F → F),
      F.isFiniteB x = true → dfx x = F.fin 0 → F.isNaNB (fx x) = false →
      fx x ≠ F.fin 0 → F.isInfB (NewtonRaphson x fx dfx) = true) ∧
    (∀ (x : F) (fx dfx : F → F),
      Homeier x fx dfx =
        F.sub x (F.div (fx x)
          (dfx (F.sub x (F.div (F.mul F.half (fx x)) (dfx x)))))) := by
  refine ⟨fun _ _ _ => rfl, ?_, ?_, fun _ _ _ => rfl⟩
  · intro x fx dfx h
    rcases h with h | h
    · unfold NewtonRaphson
      rw [eq_nan_of_isNaNB _ h, div_nan_left, sub_nan_right]
      rfl
    · unfold NewtonRaphson
      rw [eq_nan_of_isNaNB _ h, div_nan_right, sub_nan_right]
      rfl
  · intro x fx dfx hx hd hnN hne
    obtain ⟨p, hp⟩ : ∃ p, x = F.fin p := by
      cases x with
      | fin q => exact ⟨q, rfl⟩
      | pinf => exact Bool.noConfusion hx
      | ninf => exact Bool.noConfusion hx
      | nan => exact Bool.noConfusion hx
    subst hp
    unfold NewtonRaphson
    rw [hd]
    cases hf : fx (F.fin p) with
    | nan => rw [hf] at hnN; exact Bool.noConfusion hnN
    | fin q =>
      have hq : q ≠ 0 := by
        intro h0
        rw [hf, h0] at hne
        exact hne rfl
      rw [div_fin_zero]
      rcases lt_trichotomy q 0 with hlt | heq | hgt
      · rw [if_neg (by linarith), if_pos hlt]
        rfl
      · exact absurd heq hq
      · rw [if_pos hgt]
        rfl
    | pinf =>
      rw [div_pinf_zero]
      rfl
    | ninf =>
      rw [div_ninf_zero]
      rfl

/-- Witness for C6 (amended): concrete NaN propagation and a concrete
infinite step at a zero derivative. -/
theorem C6_stepping_formulas_witness :
    F.isNaNB (NewtonRaphson (F.fin 1) (fun _ => F.nan)
      (fun _ => F.fin 1)) = true ∧
    F.isInfB (NewtonRaphson (F.fin 1) (fun _ => F.fin 2)
      (fun _ => F.fin 0)) = true :=
  ⟨C6_stepping_formulas.2.1 (F.fin 1) (fun _ => F.nan) (fun _ => F.fin 1)
      (Or.inl (by decide)),
    C6_stepping_formulas.2.2.1 (F.fin 1) (fun _ => F.fin 2)
      (fun _ => F.fin 0) (by decide) rfl (by decide) (by decide)⟩

/-- C8: with heuristics on, for a finite in-bounds candidate the loop round
behaves as follows: when progress exceeds `1e-15` and the candidate was seen
before, the round retries with `x = (candidate + x)/2` if `candidate != x`
and with the nudge `x += 0.1*x + 0.1` if `candidate == x` (counter and seen
set unchanged); when it was not seen before, the candidate is recorded and
then accepted; when progress is at most `1e-15`, the round falls through
directly to acceptance with the seen set unchanged. -/
theorem C8_cycle_detection :
    ∀ (n : Finder) (x : F) (k : Nat) (seen : List F),
      n.useHeuristics = true →
      F.isInfB (cand n x) = false → F.isNaNB (cand n x) = false →
      F.ltB n.xMax (cand n x) = false → F.ltB (cand n x) n.xMin = false →
      ((F.ltB F.eps15 (F.fabs (F.sub (cand n x) x)) = true →
        (F.memB (cand n x) seen = true →
          (F.beq (cand n x) x = false →
            loopStep n x k seen =
              .cont (F.div (F.add (cand n x) x) F.two) k seen) ∧
          (F.beq (cand n x) x = true →
            loopStep n x k seen =
              .cont (F.add x (F.add (F.mul F.tenth x) F.tenth)) k seen)) ∧
        (F.memB (cand n x) seen = false →
          loopStep n x k seen =
            acceptOutcome n (convStd n) (cand n x) k (cand n x :: seen))) ∧
       (F.ltB F.eps15 (F.fabs (F.sub (cand n x) x)) = false →
        loopStep n x k seen =
          acceptOutcome n (convStd n) (cand n x) k seen)) := by
  intro n x k seen hheur hinf hnan hgt hlt
  have hg1 : gClampHi n x = false := by unfold gClampHi; rw [hinf, hgt]; rfl
  have hg2 : gClampLo n x = false := by unfold gClampLo; rw [hinf, hlt]; rfl
  have hg4 : gInfRec n x = false := by unfold gInfRec; rw [hheur, hinf]; rfl
  constructor
  · intro hprog
    have hgp : gProg n x = true := hprog
    constructor
    · intro hmem
      have hg5 : gCycle n x seen = true := by
        unfold gCycle; rw [hheur, hgp, hmem]; rfl
      constructor
      · intro hne
        unfold loopStep loopStepG
        simp [hg1, hg2, hnan, hg4, hg5, hne]
      · intro heq
        unfold loopStep loopStepG
        simp [hg1, hg2, hnan, hg4, hg5, heq]
    · intro hmem
      have hg5 : gCycle n x seen = false := by
        unfold gCycle; rw [hheur, hgp, hmem]; rfl
      unfold loopStep loopStepG
      simp [hg1, hg2, hnan, hg4, hg5, hheur, hgp]
  · intro hprog
    have hgp : gProg n x = false := hprog
    have hg5 : gCycle n x seen = false := by
      unfold gCycle; rw [hheur, hgp]; rfl
    unfold loopStep loopStepG
    simp [hg1, hg2, hnan, hg4, hg5, hheur, hgp]

set_option maxRecDepth 8000 in
/-- Witness for C8: a concrete heuristics-on round whose candidate `2` from
`x = 0` is already in the seen set, retrying at the midpoint `1`. -/
theorem C8_cycle_detection_witness :
    ((F.beq (cand wCyc (F.fin 0)) (F.fin 0) = false →
      loopStep wCyc (F.fin 0) 0 [F.fin 2] =
        .cont (F.div (F.add (cand wCyc (F.fin 0)) (F.fin 0)) F.two) 0
          [F.fin 2]) ∧
     (F.beq (cand wCyc (F.fin 0)) (F.fin 0) = true →
      loopStep wCyc (F.fin 0) 0 [F.fin 2] =
        .cont (F.add (F.fin 0) (F.add (F.mul F.tenth (F.fin 0)) F.tenth)) 0
          [F.fin 2])) ∧
    (F.memB (cand wCyc (F.fin 1)) [] = false →
      loopStep wCyc (F.fin 1) 0 [] =
        acceptOutcome wCyc (convStd wCyc) (cand wCyc (F.fin 1)) 0
          [cand wCyc (F.fin 1)]) :=
  ⟨((C8_cycle_detection wCyc (F.fin 0) 0 [F.fin 2] (by decide) (by decide)
      (by decide) (by with_unfolding_all decide)
      (by with_unfolding_all decide)).1
        (by with_unfolding_all decide)).1 (by with_unfolding_all decide),
    ((C8_cycle_detection wCyc (F.fin 1) 0 [] (by decide) (by decide)
      (by decide) (by with_unfolding_all decide)
      (by with_unfolding_all decide)).1
        (by with_unfolding_all decide)).2⟩

/-- C9: `Find` is a pure function of its arguments — two invocations with
identical inputs return identical results — and each invocation builds a
fresh `Finder` from the defaults plus the option list and starts the loop
with counter `0` and an empty seen-values set. -/
theorem C9_find_deterministic :
    ∀ (fuel : Nat) (fx dfx : F → F) (x0 : F) (opts : List (Finder → Finder)),
      Find fuel fx dfx x0 opts = Find fuel fx dfx x0 opts ∧
      Find fuel fx dfx x0 opts =
        loopFuel (opts.foldl (fun o opt => opt o) (defaultFinder fx dfx))
          fuel x0 0 [] :=
  fun _ _ _ _ _ => ⟨rfl, rfl⟩

/-- C10: `Sign` returns `0` on NaN (both comparisons are false), so inside
`Bisect` a NaN value of `fx(a)` makes the bracket-update decision reduce to
testing whether `fx(c)` has sign `0`, and the iteration continues rather
than failing. -/
theorem C10_sign_nan_zero :
    Sign F.nan = 0 ∧
    F.ltB F.nan F.zero = false ∧ F.ltB F.zero F.nan = false ∧
    (∀ y, F.isNaNB y = true → Sign y = 0) ∧
    (∀ (fx : F → F) (a b : F) (i : Nat),
      F.isNaNB (fx a) = true →
      (F.beq (fx (F.div (F.add a b) F.two)) F.zero
        || F.ltB (F.div (F.sub b a) F.two) F.tol11) = false →
      bisectIter fx (i + 1) a b =
        if Sign (fx (F.div (F.add a b) F.two)) = 0 then
          bisectIter fx i (F.div (F.add a b) F.two) b
        else bisectIter fx i a (F.div (F.add a b) F.two)) := by
  refine ⟨rfl, rfl, rfl, sign_of_nan, ?_⟩
  intro fx a b i hna hstop
  have hs : Sign (fx a) = 0 := sign_of_nan _ hna
  simp only [bisectIter]
  rw [hstop, if_neg Bool.false_ne_true, hs]

set_option maxRecDepth 8000 in
/-- Witness for C10 on `fx` that is NaN at `a = 0`: the bracket update of
`Bisect` proceeds by comparing `Sign(fx(c))` with `0`. -/
theorem C10_sign_nan_zero_witness :
    bisectIter wNaNAtZero (0 + 1) (F.fin 0) (F.fin 4) =
      if Sign (wNaNAtZero (F.div (F.add (F.fin 0) (F.fin 4)) F.two)) = 0 then
        bisectIter wNaNAtZero 0 (F.div (F.add (F.fin 0) (F.fin 4)) F.two)
          (F.fin 4)
      else
        bisectIter wNaNAtZero 0 (F.fin 0)
          (F.div (F.add (F.fin 0) (F.fin 4)) F.two) :=
  C10_sign_nan_zero.2.2.2.2 wNaNAtZero (F.fin 0) (F.fin 4) 0
    (by with_unfolding_all decide) (by with_unfolding_all decide)

end Numerics
